import Mathlib

/-!
Verification of the GetMeHired outreach engine.

This file gives a shallow embedding of the core algorithmic parts of the
repository (services/email_finder.py, services/gmail_sender.py,
services/recruiter_finder.py) and proves properties about them.

Strings are modelled by Lean strings; the character-level helpers below
mirror the Python string operations used by the source (split, strip,
replace, lower).  The embedding is faithful on ASCII text; Python's
Unicode-aware case folding and NFKD decomposition are out of scope, as no
claim here depends on non-ASCII behaviour.
-/

namespace GetMeHired

/-- Whitespace test used by Python `str.split()` / `str.strip()` / regex
whitespace (restricted to ASCII whitespace). -/
def isSpaceChar (c : Char) : Bool :=
  c = ' ' ∨ c = '\t' ∨ c = '\n' ∨ c = '\r' ∨ c = '\x0b' ∨ c = '\x0c'

/-- Split a character list at every character satisfying `p`, keeping empty
segments, as Python `str.split(sep)` does for a one-character separator. -/
def splitBy (p : Char → Bool) : List Char → List (List Char)
  | [] => [[]]
  | c :: rest =>
    match splitBy p rest with
    | [] => [[]]
    | g :: gs => if p c then [] :: g :: gs else (c :: g) :: gs

/-- Python `str.strip()`: drop leading and trailing whitespace. -/
def pyStrip (cs : List Char) : List Char :=
  ((cs.dropWhile isSpaceChar).reverse.dropWhile isSpaceChar).reverse

/-- Python `str.split()` with no argument: whitespace-separated words,
empty segments dropped. -/
def pyWords (cs : List Char) : List (List Char) :=
  (splitBy isSpaceChar cs).filter (fun w => ¬ w.isEmpty)

/-- Prefix test on character lists, recursing on the needle first. -/
def isPrefixL : List Char → List Char → Bool
  | [], _ => true
  | _ :: _, [] => false
  | a :: as, b :: bs => a == b && isPrefixL as bs

/-- Fuel-driven scanner for Python `str.replace`: scan the haystack left to
right; at each position, if `needle` is a (non-empty) prefix, emit `repl`
and skip past the needle, otherwise keep one character.  With
`fuel ≥ haystack length` this is exactly Python `str.replace`. -/
def replFuel (needle repl : List Char) : Nat → List Char → List Char
  | _, [] => []
  | 0, cs => cs
  | fuel + 1, c :: cs =>
    if isPrefixL needle (c :: cs) ∧ needle ≠ [] then
      repl ++ replFuel needle repl fuel ((c :: cs).drop needle.length)
    else
      c :: replFuel needle repl fuel cs

/-- Python `s.replace(needle, repl)` (all non-overlapping occurrences,
left to right, replacement text not rescanned). -/
def pyReplace (s needle repl : String) : String :=
  ⟨replFuel needle.data repl.data s.data.length s.data⟩

/-! ## email_finder.py -/

/-- `_PATTERNS` from email_finder.py: the 6 canonical templates, in
priority order. -/
def PATTERNS : List String :=
  ["{first}.{last}", "{f}{last}", "{first}{l}", "{first}", "{f}.{last}", "{first}{last}"]

/-- Python `first[0] if first else ""`: the one-character initial of a
(possibly empty) token. -/
def initialOf (s : String) : String :=
  ⟨s.data.take 1⟩

/-- `apply` inside `_generate_emails`: substitute the name tokens into a
template and append `@domain`. -/
def applyPattern (first last domain : String) (p : String) : String :=
  pyReplace (pyReplace (pyReplace (pyReplace p "{first}" first)
    "{last}" last) "{f}" (initialOf first)) "{l}" (initialOf last) ++ "@" ++ domain

/-- The 6 combinatoric candidates of `_generate_emails` when no pattern is
known, in the order they are generated. -/
def candidateEmails (first last domain : String) : List String :=
  PATTERNS.map (applyPattern first last domain)

/-- `_generate_emails` from email_finder.py.  A `none` or empty pattern
(falsy in Python) triggers the combinatorics fallback. -/
def generateEmails (first last domain : String) (pattern : Option String) : String :=
  match pattern with
  | some p =>
    if p.isEmpty then String.intercalate "," (candidateEmails first last domain)
    else applyPattern first last domain p
  | none => String.intercalate "," (candidateEmails first last domain)

/-- Characters produced by `_normalize`: lowercase ASCII letters only. -/
def isLowerAlpha (c : Char) : Bool :=
  'a' ≤ c ∧ c ≤ 'z'

/-- A non-empty token in the image of `_normalize`: non-empty and made of
lowercase ASCII letters. -/
def isNormalizedToken (s : String) : Bool :=
  ¬ s.data.isEmpty ∧ s.data.all isLowerAlpha

/-- The vote a single mined local-part casts in `_infer_pattern`
(email_finder.py lines 369-389), or `none` when it casts no vote. -/
def voteOf (localPart : String) : Option String :=
  if (localPart.data.map Char.toLower).contains '.' then
    match splitBy (fun c => c = '.') (localPart.data.map Char.toLower) with
    | [a, _b] => if a.length = 1 then some "{f}.{last}" else some "{first}.{last}"
    | _ => none
  else if (localPart.data.map Char.toLower).contains '-' then
    some "{first}.{last}"
  else if (localPart.data.map Char.toLower).length ≤ 5 then
    some "{f}{last}"
  else
    some "{first}{last}"

/-- Number of votes a template receives from a list of local-parts, using
an arbitrary per-local-part vote function. -/
def tallyWith (vote : String → Option String) (locals : List String) (p : String) : Nat :=
  (locals.map vote).count (some p)

/-- Vote count of `_infer_pattern`. -/
def tally (locals : List String) (p : String) : Nat :=
  tallyWith voteOf locals p

/-- Python `max(votes, key=...)` over the insertion-ordered vote dict:
the first template (in `PATTERNS` order) attaining the maximal tally. -/
def bestPatternWith (vote : String → Option String) (locals : List String) : String :=
  PATTERNS.foldl
    (fun b p => if tallyWith vote locals b < tallyWith vote locals p then p else b)
    "{first}.{last}"

/-- `_infer_pattern` parameterised by the per-local-part vote function. -/
def inferPatternWith (vote : String → Option String) (locals : List String) : Option String :=
  if locals.isEmpty then none
  else
    let b := bestPatternWith vote locals
    if 0 < tallyWith vote locals b then some b else none

/-- `_infer_pattern` from email_finder.py. -/
def inferPattern (locals : List String) : Option String :=
  inferPatternWith voteOf locals

/-- Word-class of the credential regex `_CREDENTIAL_PATTERN`:
the character class `[\w\-\.]` (ASCII reading of `\w`). -/
def isCredWordChar (c : Char) : Bool :=
  c.isAlphanum ∨ c = '_' ∨ c = '-' ∨ c = '.'

/-- Uppercase ASCII letter, the `[A-Z]` class of `_CREDENTIAL_PATTERN`. -/
def isUpperAZ (c : Char) : Bool :=
  'A' ≤ c ∧ c ≤ 'Z'

/-- One credential word: `[A-Z][\w\-\.]+` (an uppercase letter followed by
at least one word character). -/
def credGroup (run : List Char) : Bool :=
  match run with
  | [] => false
  | c :: rest => isUpperAZ c ∧ ¬ rest.isEmpty ∧ rest.all isCredWordChar

/-- Whether text matches the body of `_CREDENTIAL_PATTERN` after the
comma and up to the anchor, i.e. `\s*[A-Z][\w\-\.]+(?:\s+[A-Z][\w\-\.]+)*`
consuming the whole input: after optional leading whitespace, one or more
credential words separated by whitespace, with no trailing whitespace.
(The character classes of the regex are disjoint from whitespace, so the
regex language is exactly this.) -/
def credTailBody (cs : List Char) : Bool :=
  let gs := splitBy isSpaceChar (cs.dropWhile isSpaceChar)
  gs.getLast? ≠ some [] ∧ gs.all (fun g => g.isEmpty ∨ credGroup g)

/-- Whether the text after a comma matches the rest of
`_CREDENTIAL_PATTERN`, i.e. `\s*[A-Z][\w\-\.]+(?:\s+[A-Z][\w\-\.]+)*$`.
Python `$` (no MULTILINE) matches at end-of-string or just before a
single trailing newline, so the body may either consume the whole tail or
everything except one final `'\n'` (the body always ends in a word
character, so the two cases are mutually exclusive). -/
def credTailMatches (cs : List Char) : Bool :=
  credTailBody cs ∨ (cs.getLast? = some '\n' ∧ credTailBody cs.dropLast)

/-- `_CREDENTIAL_PATTERN.sub("", name)`: delete the leftmost match, which
runs from the leftmost comma whose tail matches the credential pattern up
to the `$` anchor (the regex is anchored, so `re.sub` removes at most one
match).  When `$` matched just before a trailing newline, that newline is
outside the match and survives the substitution. -/
def stripCredential : List Char → List Char
  | [] => []
  | c :: cs =>
    if c = ',' ∧ credTailMatches cs then
      (if credTailBody cs then [] else ['\n'])
    else c :: stripCredential cs

/-- `_normalize` from email_finder.py, on ASCII text: lowercase and keep
only ASCII letters. -/
def normalizeToken (cs : List Char) : String :=
  ⟨(cs.map Char.toLower).filter Char.isAlpha⟩

/-- Python `w.rstrip(".")`: drop trailing dots. -/
def rstripDots (cs : List Char) : List Char :=
  (cs.reverse.dropWhile (fun c => c = '.')).reverse

/-- `_parse_name` from email_finder.py. -/
def parseName (fullName : String) : String × String :=
  if fullName.isEmpty then ("", "")
  else
    let name := pyStrip (stripCredential fullName.data)
    let words := pyWords name
    if words.length < 2 then ("", "")
    else
      let first := normalizeToken words.headI
      let lastLoop :=
        match (words.drop 1).find? (fun w => 1 < (rstripDots w).length) with
        | some w => normalizeToken w
        | none => ""
      let last := if lastLoop.isEmpty then normalizeToken (words.getD 1 []) else lastLoop
      if first.isEmpty ∨ last.isEmpty then ("", "") else (first, last)

/-- The token list `_parse_name` works on: credential suffix stripped,
then `strip()`, then whitespace-split. -/
def nameTokens (s : String) : List (List Char) :=
  pyWords (pyStrip (stripCredential s.data))

/-! ## models/recruiter.py -/

/-- The `Recruiter` record (models/recruiter.py).  Timestamps are modelled
as integers (seconds); `email_bounced` is the tri-state bounce flag
(`none` = pending, `some true` = bounced, `some false` = tentatively
delivered). -/
structure Recruiter where
  name : String
  title : Option String := none
  linkedin_url : Option String := none
  email : Option String := none
  source : String := "google"
  email_sent_at : Option Int := none
  email_sent_to : Option String := none
  email_tried : List String := []
  email_bounced : Option Bool := none
deriving Repr, DecidableEq, Inhabited

/-! ## gmail_sender.py -/

/-- Candidate address list of a recruiter:
`[e.strip() for e in r.email.split(",") if e.strip()]` (empty when the
email field is unset). -/
def candidatesOfStr (e : String) : List String :=
  (((splitBy (fun c => c = ',') e.data).map pyStrip).filter
    (fun cs => ¬ cs.isEmpty)).map (fun cs => (⟨cs⟩ : String))

/-- Candidate addresses of a recruiter record. -/
def candidatesOf (email : Option String) : List String :=
  match email with
  | none => []
  | some e => candidatesOfStr e

/-- `_is_sendable` from gmail_sender.py. -/
def isSendable (r : Recruiter) : Bool :=
  match r.email with
  | none => false
  | some e =>
    if e.isEmpty then false
    else
      ¬ ((candidatesOfStr e).filter (fun c => c ∉ r.email_tried)).isEmpty ∧
        (r.email_sent_at = none ∨ r.email_bounced = some true)

/-- `_next_address` from gmail_sender.py: the first candidate address not
yet tried. -/
def nextAddress (r : Recruiter) : Option String :=
  match r.email with
  | none => none
  | some e =>
    if e.isEmpty then none
    else (candidatesOfStr e).find? (fun c => c ∉ r.email_tried)

/-- The per-recruiter state update of one send in `send_batch`
(gmail_sender.py lines 232-237); a recruiter with no next address is left
unchanged (the loop `continue`s). -/
def updateSent (now : Int) (r : Recruiter) : Recruiter :=
  match nextAddress r with
  | none => r
  | some addr =>
    { r with
      email_sent_at := some now
      email_sent_to := some addr
      email_tried := r.email_tried ++ [addr]
      email_bounced := none }

/-- `send_batch` (gmail_sender.py): the first `maxSend` sendable
recruiters, in list order, each receive one send; everyone else is
unchanged.  The Gmail call, pacing delay and per-send persistence are side
effects outside the state transition; `now` stands for the send
timestamp. -/
def sendBatchGo (now : Int) : Nat → List Recruiter → List Recruiter
  | _, [] => []
  | 0, r :: rs => r :: rs
  | budget + 1, r :: rs =>
    if isSendable r then updateSent now r :: sendBatchGo now budget rs
    else r :: sendBatchGo now (budget + 1) rs

/-- `send_batch` on a full recruiter list. -/
def sendBatch (rs : List Recruiter) (maxSend : Nat) (now : Int) : List Recruiter :=
  sendBatchGo now maxSend rs

/-- Iterate `send_batch` over a sequence of batch invocations, each with
its own `maxSend` bound and timestamp. -/
def sendBatches (invocations : List (Nat × Int)) (rs : List Recruiter) : List Recruiter :=
  invocations.foldl (fun acc inv => sendBatch acc inv.1 inv.2) rs

/-- Python `s.lower()` on ASCII text. -/
def lowerString (s : String) : String :=
  ⟨s.data.map Char.toLower⟩

/-- The per-recruiter reconciliation step of `check_bounces`
(gmail_sender.py lines 328-341). -/
def reconcileOne (bounceSet : List String) (cutoff : Int) (r : Recruiter) : Recruiter :=
  if (r.email_sent_to.getD "").isEmpty then r
  else if (match r.email_sent_at with | some t => decide (t < cutoff) | none => false) then r
  else if lowerString (r.email_sent_to.getD "") ∈ bounceSet then
    if r.email_bounced ≠ some true then { r with email_bounced := some true } else r
  else if r.email_bounced = none then { r with email_bounced := some false }
  else r

/-- `check_bounces` (gmail_sender.py): reconcile every tracked recruiter
against the fetched bounce-address set and return the updated list
together with `len([r for r in recruiters if r.email_bounced is True])`.
The mailbox query is a side effect producing `bounceSet` (already
lowercased by `_fetch_bounce_addresses`); `now` stands for
`datetime.now`. -/
def checkBounces (recruiters : List Recruiter) (bounceSet : List String)
    (now lookbackMinutes : Int) : List Recruiter × Nat :=
  let cutoff := now - 60 * lookbackMinutes
  let updated := recruiters.map (reconcileOne bounceSet cutoff)
  (updated, (updated.filter (fun r => r.email_bounced = some true)).length)

/-! ## recruiter_finder.py -/

/-- `_normalize_linkedin_url`: lowercase and strip trailing slashes. -/
def normalizeLinkedinUrl (url : String) : String :=
  ⟨((url.data.map Char.toLower).reverse.dropWhile (fun c => c = '/')).reverse⟩

/-- Dedup key of a discovered contact:
`_normalize_linkedin_url(r.linkedin_url or "")`. -/
def normKey (r : Recruiter) : String :=
  normalizeLinkedinUrl (r.linkedin_url.getD "")

/-- Processing of one search result inside the `find_recruiters` loop
(recruiter_finder.py lines 188-193): keep the contact iff its normalized
URL is non-empty and unseen. -/
def cascadeStepOne (st : List Recruiter × List String) (r : Recruiter) :
    List Recruiter × List String :=
  let n := normKey r
  if ¬ n.isEmpty ∧ n ∉ st.2 then (st.1 ++ [r], n :: st.2) else st

/-- Processing of one result batch in `find_recruiters`. -/
def cascadeBatch (st : List Recruiter × List String) (batch : List Recruiter) :
    List Recruiter × List String :=
  batch.foldl cascadeStepOne st

/-- The query loop of `find_recruiters` (recruiter_finder.py lines
157-196): consume result batches in order, stopping before a batch once
`maxResults` unique contacts have accumulated.  Each batch is the parsed
result list of one query against whichever backend the failover cursor
selected; query construction and backend failover only determine which
batches arrive and are abstracted into the `batches` argument. -/
def cascadeLoop (maxResults : Nat) :
    List (List Recruiter) → List Recruiter × List String → List Recruiter × List String
  | [], st => st
  | b :: bs, st =>
    if maxResults ≤ st.1.length then st
    else cascadeLoop maxResults bs (cascadeBatch st b)

/-- `find_recruiters` core: run the cascade loop from the empty state and
return `all_recruiters[:max_results]`. -/
def findRecruiters (batches : List (List Recruiter)) (maxResults : Nat) : List Recruiter :=
  (cascadeLoop maxResults batches ([], [])).1.take maxResults

/-! ## First-occurrence deduplication (proof machinery for the send-state
invariant and the cascade dedup) -/

/-- First-occurrence deduplication with an accumulator of already-seen
elements. -/
def dedupFirstAux (seen : List String) : List String → List String
  | [] => []
  | a :: as =>
    if a ∈ seen then dedupFirstAux seen as
    else a :: dedupFirstAux (a :: seen) as

/-- First-occurrence deduplication of a list (keeps the first occurrence
of every element, in order). -/
def dedupFirst (l : List String) : List String :=
  dedupFirstAux [] l

/-- The seen-accumulator after `dedupFirstAux` has consumed a list. -/
def seenAfter (seen : List String) : List String → List String
  | [] => seen
  | a :: as => seenAfter (if a ∈ seen then seen else a :: seen) as

/-- Invariant of the `find_recruiters` accumulation loop, relative to the
stream `s` of results processed so far: the accumulator is a sublist of
the stream with pairwise-distinct non-empty normalized URLs, the seen-set
holds exactly the accumulator's keys and every processed non-empty key,
and every kept contact is the first element of the stream bearing its
key. -/
def cascadeInv (s acc : List Recruiter) (seen : List String) : Prop :=
  acc.Sublist s ∧
  (acc.map normKey).Nodup ∧
  (∀ k, k ∈ seen ↔ k ∈ acc.map normKey) ∧
  (∀ x ∈ s, ¬ (normKey x).isEmpty → normKey x ∈ seen) ∧
  (∀ a ∈ acc, ¬ (normKey a).isEmpty ∧
    ∃ l₁ l₂, s = l₁ ++ a :: l₂ ∧ ∀ x ∈ l₁, normKey x ≠ normKey a)

/-- Invariant of a contact's send state: `triedAddresses` is the
first-occurrence deduplication of some prefix of the candidate address
list.  This holds initially (empty prefix) and is exactly the set of
states `send_batch` can produce. -/
def goodTried (r : Recruiter) : Prop :=
  ∃ n, r.email_tried = dedupFirst ((candidatesOf r.email).take n)

/-! ## Concrete sample contacts used by witnesses and counterexamples -/

/-- Sample contact for C5's witness: two candidates, nothing tried yet. -/
def sampleFresh : Recruiter :=
  { name := "F", email := some "a@x.com,b@x.com" }

/-- Sample result batches for C6's witness: the same profile URL appears
twice with different case and trailing slash. -/
def sampleBatchesC6 : List (List Recruiter) :=
  [[{ name := "N1", linkedin_url := some "https://linkedin.com/in/x/" }],
   [{ name := "N2", linkedin_url := some "HTTPS://linkedin.com/in/X" },
    { name := "N3", linkedin_url := some "https://linkedin.com/in/y" }]]

/-- Sample contact for C4: single candidate address, already tried,
bounced. -/
def sampleExhausted : Recruiter :=
  { name := "X", email := some "a@x.com", email_tried := ["a@x.com"],
    email_bounced := some true }

/-- Sample contact for C10: marked bounced by an earlier run, sent inside
the window. -/
def sampleBouncedPrev : Recruiter :=
  { name := "P", email_sent_to := some "a@x.com", email_sent_at := some 9000,
    email_bounced := some true }

/-- Sample contact for C3: inside the window, tentatively delivered
(bounce flag false) from an earlier reconciliation. -/
def sampleDelivered : Recruiter :=
  { name := "D", email_sent_to := some "a@x.com", email_sent_at := some 9000,
    email_bounced := some false }

/-- Sample contact for C5: `email_tried` is a subsequence of the candidate
list, but not one the state machine itself could have produced (the
second candidate was tried first). -/
def sampleOutOfOrder : Recruiter :=
  { name := "O", email := some "a@x.com,b@x.com", email_tried := ["b@x.com"] }

/-! ## Claim-side definition for claim C2 -/

/-- Modelled from the spec (claim C2 wording): each mined local-part is
lowercased; if it contains a dot or a hyphen it is split into two tokens
and votes for the initial-plus-dot template when the first token has
length 1 and for the first-name-plus-dot template otherwise; with no
separator it votes for the short-initial-concatenation template when its
length is at most 5 and for the full-concatenation template otherwise. -/
def c2SpecVoteOriginal (localPart : String) : Option String :=
  let l := localPart.data.map Char.toLower
  if l.contains '.' ∨ l.contains '-' then
    match splitBy (fun c => c = '.' ∨ c = '-') l with
    | a :: _ => some (if a.length = 1 then "{f}.{last}" else "{first}.{last}")
    | [] => none
  else
    some (if l.length ≤ 5 then "{f}{last}" else "{first}{last}")

/-- The pattern-inference vote as claim C2 states it: `inferPatternWith`
the claim-side per-local-part vote. -/
def c2SpecInferOriginal (locals : List String) : Option String :=
  inferPatternWith c2SpecVoteOriginal locals

/-! ## Helper lemmas -/

lemma candidatesOfStr_empty : candidatesOfStr "" = [] := rfl

lemma isSendable_iff (r : Recruiter) :
    isSendable r = true ↔
      ((∃ c ∈ candidatesOf r.email, c ∉ r.email_tried) ∧
        (r.email_sent_at = none ∨ r.email_bounced = some true)) := by
  cases he : r.email with
  | none => simp [isSendable, candidatesOf, he]
  | some e =>
    by_cases hE : e.isEmpty
    · have he' : e = "" := (String.isEmpty_iff e).1 hE
      subst he'
      simp [isSendable, he, candidatesOf, candidatesOfStr_empty]
    · have hfil : ∀ l : List String,
          (¬ (l.filter (fun c => c ∉ r.email_tried)).isEmpty) ↔
            ∃ c ∈ l, c ∉ r.email_tried := by
        intro l
        simp [List.isEmpty_iff, List.filter_eq_nil_iff]
      simp only [isSendable, he, hE, if_false, candidatesOf, decide_eq_true_eq,
        Bool.false_eq_true, hfil]

/-- C4: `isEligible` (the code's `_is_sendable`) is true iff the contact
has at least one candidate address (email split on commas, blanks
dropped) outside `triedAddresses` and additionally `sentAt` is unset or
`bounced` is true; in particular it is false once every candidate address
has been tried (the EXHAUSTED state). -/
theorem c4_is_eligible (r : Recruiter) :
    (isSendable r = true ↔
      ((∃ c ∈ candidatesOf r.email, c ∉ r.email_tried) ∧
        (r.email_sent_at = none ∨ r.email_bounced = some true))) ∧
    ((∀ c ∈ candidatesOf r.email, c ∈ r.email_tried) → isSendable r = false) := by
  refine ⟨isSendable_iff r, fun hall => ?_⟩
  rcases hb : isSendable r with _ | _
  · rfl
  · rcases (isSendable_iff r).1 hb with ⟨⟨c, hc, hct⟩, -⟩
    exact absurd (hall c hc) hct

/-- C10: the integer returned by `checkBounces` is the number of contacts
in the full updated tracked list whose bounce flag is true — contacts
already marked bounced by earlier runs keep that flag under
reconciliation and are counted too. -/
theorem c10_bounce_count (rs : List Recruiter) (bounceSet : List String)
    (now lookbackMinutes : Int) :
    (checkBounces rs bounceSet now lookbackMinutes).2 =
      ((checkBounces rs bounceSet now lookbackMinutes).1.filter
        (fun r => r.email_bounced = some true)).length ∧
    (checkBounces rs bounceSet now lookbackMinutes).1 =
      rs.map (reconcileOne bounceSet (now - 60 * lookbackMinutes)) ∧
    (checkBounces rs bounceSet now lookbackMinutes).2 =
      (rs.filter (fun r =>
        (reconcileOne bounceSet (now - 60 * lookbackMinutes) r).email_bounced = some true)).length ∧
    ∀ r ∈ rs, r.email_bounced = some true →
      (reconcileOne bounceSet (now - 60 * lookbackMinutes) r).email_bounced = some true := by
  refine ⟨rfl, rfl, ?_, ?_⟩
  · show ((rs.map _).filter _).length = _
    rw [List.filter_map, List.length_map]
    rfl
  · intro r _ hr
    unfold reconcileOne
    split_ifs with h1 h2 h3 h4 h5 <;> simp_all

/-- C9: `findRecruiters` returns at most `maxResults` contacts; the result
is a prefix of the accumulated unique-contact list, and when the
accumulated list reaches `maxResults` (e.g. because the crossing batch
pushed it past the threshold) the result has exactly `maxResults`
entries. -/
theorem c9_max_results (batches : List (List Recruiter)) (maxResults : Nat) :
    (findRecruiters batches maxResults).length ≤ maxResults ∧
    (findRecruiters batches maxResults) <+: (cascadeLoop maxResults batches ([], [])).1 ∧
    (maxResults ≤ (cascadeLoop maxResults batches ([], [])).1.length →
      (findRecruiters batches maxResults).length = maxResults) := by
  refine ⟨?_, ?_, ?_⟩
  · simp only [findRecruiters, List.length_take]
    exact Nat.min_le_left _ _
  · exact ⟨(cascadeLoop maxResults batches ([], [])).1.drop maxResults,
      List.take_append_drop _ _⟩
  · intro h
    simp [findRecruiters, Nat.min_eq_left h]

/-- Witness for C9 at a concrete input: two batches, three contacts with
two distinct normalized URLs, threshold 1. -/
theorem c9_max_results_witness :
    1 ≤ (cascadeLoop 1
        [[{ name := "N1", linkedin_url := some "https://linkedin.com/in/x/" }],
         [{ name := "N2", linkedin_url := some "HTTPS://linkedin.com/in/X" },
          { name := "N3", linkedin_url := some "https://linkedin.com/in/y" }]]
        ([], [])).1.length ∧
    (findRecruiters
        [[{ name := "N1", linkedin_url := some "https://linkedin.com/in/x/" }],
         [{ name := "N2", linkedin_url := some "HTTPS://linkedin.com/in/X" },
          { name := "N3", linkedin_url := some "https://linkedin.com/in/y" }]] 1).length = 1 :=
  ⟨by decide,
   (c9_max_results
      [[{ name := "N1", linkedin_url := some "https://linkedin.com/in/x/" }],
       [{ name := "N2", linkedin_url := some "HTTPS://linkedin.com/in/X" },
        { name := "N3", linkedin_url := some "https://linkedin.com/in/y" }]] 1).2.2 (by decide)⟩

/-- Witness for C4 at a concrete contact whose only candidate address has
been tried (EXHAUSTED): not eligible. -/
theorem c4_is_eligible_witness : isSendable sampleExhausted = false :=
  (c4_is_eligible sampleExhausted).2 (by decide)

/-- Witness for C10 at a concrete contact already marked bounced by an
earlier run: it keeps the flag and is counted. -/
theorem c10_bounce_count_witness :
    (checkBounces [sampleBouncedPrev] [] 10000 30).2 = 1 ∧
    (reconcileOne [] (10000 - 60 * 30) sampleBouncedPrev).email_bounced = some true :=
  ⟨by decide,
   (c10_bounce_count [sampleBouncedPrev] [] 10000 30).2.2.2
     sampleBouncedPrev (by decide) (by decide)⟩

/-- C7: name parsing for email generation strips the trailing
comma-introduced credential suffix and whitespace-splits what remains;
when fewer than 2 tokens remain it fails with the empty result; otherwise
the first token (normalized) is the first name and the first subsequent
token longer than one character ignoring trailing dots (skipping middle
initials) is the last name, provided both normalize to something
non-empty; in particular "Julius Harris, SHRM" parses to
("julius", "harris"), and the credential suffix is also stripped when the
name ends in a newline (the regex anchor matches before a trailing
newline). -/
theorem c7_parse_name (s : String) :
    ((nameTokens s).length < 2 → parseName s = ("", "")) ∧
    (∀ w, 2 ≤ (nameTokens s).length →
      ((nameTokens s).drop 1).find? (fun t => 1 < (rstripDots t).length) = some w →
      ¬ (normalizeToken (nameTokens s).headI).isEmpty →
      ¬ (normalizeToken w).isEmpty →
      parseName s = (normalizeToken (nameTokens s).headI, normalizeToken w)) ∧
    parseName "Julius Harris, SHRM" = ("julius", "harris") ∧
    parseName "Jo X Y, MBA\n" = ("jo", "x") := by
  refine ⟨?_, ?_, by decide, by decide⟩
  · intro hlen
    by_cases hs : s.isEmpty
    · simp [parseName, hs]
    · simp only [nameTokens] at hlen
      simp only [parseName, hs, if_false]
      rw [if_pos hlen]
      simp
  · intro w h2 hfind hf hl
    by_cases hs : s.isEmpty
    · rw [(String.isEmpty_iff s).1 hs] at h2
      exact absurd h2 (by decide)
    · have hnl : ¬ ((nameTokens s).length < 2) := by omega
      simp only [nameTokens] at hnl hfind hf
      simp only [parseName, hs, if_false]
      rw [if_neg hnl, hfind]
      simp [hf, hl, nameTokens]

/-- Witness for C7 at the concrete name "Marcus P White" (middle initial
skipped). -/
theorem c7_parse_name_witness :
    parseName "Marcus P White" = ("marcus", "white") :=
  (c7_parse_name "Marcus P White").2.1 "White".data (by decide) (by decide)
    (by decide) (by decide)

/-- C8: pattern inference is invariant under permutation of the mined
local-parts — it is a function of the multiset of local-parts alone. -/
theorem c8_infer_permutation_invariant (l l' : List String) (h : l.Perm l') :
    inferPattern l = inferPattern l' := by
  have ht : tallyWith voteOf l = tallyWith voteOf l' := by
    funext p
    unfold tallyWith
    rw [List.count_eq_countP, List.count_eq_countP]
    exact (h.map voteOf).countP_eq _
  unfold inferPattern inferPatternWith bestPatternWith
  rw [ht, h.isEmpty_eq]

/-- Witness for C8 at the two orders of the spec's mined local-part
example. -/
theorem c8_infer_permutation_witness :
    inferPattern ["j.doe", "a.smith"] = inferPattern ["a.smith", "j.doe"] ∧
    inferPattern ["j.doe", "a.smith"] = some "{f}.{last}" :=
  ⟨c8_infer_permutation_invariant _ _ (by decide), by decide⟩

/-- C3 counterexample: a contact inside the lookback window whose bounce
state is `false` (tentatively delivered, not pending) still receives a
verdict when its address shows up in the bounce set — `checkBounces`
flips it to `true`, while the claim says only pending contacts receive a
verdict. -/
theorem c3_counterexample :
    sampleDelivered.email_bounced = some false ∧
    sampleDelivered.email_sent_at = some 9000 ∧
    (10000 : Int) - 60 * 30 ≤ 9000 ∧
    ((checkBounces [sampleDelivered] ["a@x.com"] 10000 30).1.map
      (fun r => r.email_bounced)) = [some true] := by
  refine ⟨rfl, rfl, by decide, by decide⟩

/-- C3 (amended): `checkBounces` maps `reconcileOne` over the full tracked
list; a contact with no `sentTo` address, or whose last `sentAt` falls
before the lookback window, is left completely unchanged; a contact in
the window whose `sentTo` address is in the bounce set gets
`bounced = true` regardless of its previous bounce state; a contact in
the window whose address is not in the bounce set gets `bounced = false`
if its state was pending and keeps its state otherwise. -/
theorem c3_bounce_reconcile (rs : List Recruiter) (bounceSet : List String)
    (now lookbackMinutes cutoff : Int) (r : Recruiter) :
    ((checkBounces rs bounceSet now lookbackMinutes).1 =
      rs.map (reconcileOne bounceSet (now - 60 * lookbackMinutes))) ∧
    ((r.email_sent_to.getD "").isEmpty →
      reconcileOne bounceSet cutoff r = r) ∧
    (∀ t, r.email_sent_at = some t → t < cutoff →
      reconcileOne bounceSet cutoff r = r) ∧
    (¬ (r.email_sent_to.getD "").isEmpty →
      (∀ t, r.email_sent_at = some t → cutoff ≤ t) →
      ((lowerString (r.email_sent_to.getD "") ∈ bounceSet →
          reconcileOne bounceSet cutoff r = { r with email_bounced := some true }) ∧
       (lowerString (r.email_sent_to.getD "") ∉ bounceSet →
          r.email_bounced = none →
          reconcileOne bounceSet cutoff r = { r with email_bounced := some false }) ∧
       (lowerString (r.email_sent_to.getD "") ∉ bounceSet →
          r.email_bounced ≠ none →
          reconcileOne bounceSet cutoff r = r))) := by
  refine ⟨rfl, ?_, ?_, ?_⟩
  · intro h
    unfold reconcileOne
    rw [if_pos h]
  · intro t ht hlt
    unfold reconcileOne
    by_cases h1 : (r.email_sent_to.getD "").isEmpty
    · rw [if_pos h1]
    · have hc : (match r.email_sent_at with
          | some u => decide (u < cutoff) | none => false) = true := by
        rw [ht]
        simpa using hlt
      rw [if_neg h1, if_pos hc]
  · intro hne hwin
    have hwin' : (match r.email_sent_at with
        | some t => decide (t < cutoff) | none => false) = false := by
      cases hat : r.email_sent_at with
      | none => rfl
      | some t =>
        simpa using Int.not_lt.mpr (hwin t hat)
    refine ⟨?_, ?_, ?_⟩
    · intro hin
      unfold reconcileOne
      rw [if_neg hne, if_neg (by simp [hwin']), if_pos hin]
      by_cases hb : r.email_bounced = some true
      · rw [if_neg (by simp [hb])]
        cases r
        simp_all
      · rw [if_pos hb]
    · intro hout hpend
      unfold reconcileOne
      rw [if_neg hne, if_neg (by simp [hwin']), if_neg hout, if_pos hpend]
    · intro hout hpend
      unfold reconcileOne
      rw [if_neg hne, if_neg (by simp [hwin']), if_neg hout, if_neg hpend]

/-- Witness for C3 at concrete contacts: a stale contact is untouched and
a pending in-window contact with no bounce notification is marked
tentatively delivered. -/
theorem c3_bounce_reconcile_witness :
    reconcileOne ["a@x.com"] 8200
        { name := "S", email_sent_to := some "a@x.com", email_sent_at := some 1000,
          email_bounced := none } =
      { name := "S", email_sent_to := some "a@x.com", email_sent_at := some 1000,
        email_bounced := none } ∧
    reconcileOne [] 8200
        { name := "T", email_sent_to := some "b@x.com", email_sent_at := some 9000,
          email_bounced := none } =
      { name := "T", email_sent_to := some "b@x.com", email_sent_at := some 9000,
        email_bounced := some false } :=
  ⟨(c3_bounce_reconcile [] ["a@x.com"] 0 0 8200
      { name := "S", email_sent_to := some "a@x.com", email_sent_at := some 1000,
        email_bounced := none }).2.2.1 1000 rfl (by decide),
   (c3_bounce_reconcile [] [] 0 0 8200
      { name := "T", email_sent_to := some "b@x.com", email_sent_at := some 9000,
        email_bounced := none }).2.2.2 (by decide)
      (fun t ht => by simp at ht; omega) |>.2.1 (by decide) rfl⟩

lemma foldl_best_spec (f : String → Nat) :
    ∀ (l : List String) (b : String),
      (l.foldl (fun acc p => if f acc < f p then p else acc) b = b ∧
        ∀ q ∈ l, f q ≤ f b) ∨
      (∃ l₁ q l₂, l = l₁ ++ q :: l₂ ∧
        l.foldl (fun acc p => if f acc < f p then p else acc) b = q ∧
        f b < f q ∧ (∀ x ∈ l₁, f x < f q) ∧ ∀ x ∈ l₂, f x ≤ f q) := by
  intro l
  induction l with
  | nil => exact fun b => Or.inl ⟨rfl, by simp⟩
  | cons p l ih =>
    intro b
    by_cases hbp : f b < f p
    · rcases ih p with ⟨heq, hle⟩ | ⟨l₁, q, l₂, hsplit, heq, hlt, hall₁, hall₂⟩
      · refine Or.inr ⟨[], p, l, rfl, ?_, hbp, by simp, hle⟩
        simpa [hbp] using heq
      · refine Or.inr ⟨p :: l₁, q, l₂, by rw [hsplit]; rfl, ?_,
          hbp.trans hlt, ?_, hall₂⟩
        · simpa [hbp] using heq
        · intro x hx
          rcases List.mem_cons.1 hx with rfl | hx
          · exact hlt
          · exact hall₁ x hx
    · rcases ih b with ⟨heq, hle⟩ | ⟨l₁, q, l₂, hsplit, heq, hlt, hall₁, hall₂⟩
      · refine Or.inl ⟨?_, ?_⟩
        · simpa [hbp] using heq
        · intro x hx
          rcases List.mem_cons.1 hx with rfl | hx
          · omega
          · exact hle x hx
      · refine Or.inr ⟨p :: l₁, q, l₂, by rw [hsplit]; rfl, ?_, hlt, ?_, hall₂⟩
        · simpa [hbp] using heq
        · intro x hx
          rcases List.mem_cons.1 hx with rfl | hx
          · omega
          · exact hall₁ x hx

lemma bestPatternWith_spec (vote : String → Option String) (locals : List String) :
    bestPatternWith vote locals ∈ PATTERNS ∧
    (∀ q ∈ PATTERNS, tallyWith vote locals q ≤ tallyWith vote locals (bestPatternWith vote locals)) ∧
    ∃ l₁ l₂, PATTERNS = l₁ ++ bestPatternWith vote locals :: l₂ ∧
      ∀ q ∈ l₁, tallyWith vote locals q < tallyWith vote locals (bestPatternWith vote locals) := by
  have h := foldl_best_spec (tallyWith vote locals) PATTERNS "{first}.{last}"
  rcases h with ⟨heq, hle⟩ | ⟨l₁, q, l₂, hsplit, heq, hlt, hall₁, hall₂⟩
  · have hb : bestPatternWith vote locals = "{first}.{last}" := heq
    refine ⟨by rw [hb]; decide, fun q hq => by rw [hb]; exact hle q hq, ?_⟩
    refine ⟨[], PATTERNS.tail, by rw [hb]; rfl, by simp⟩
  · have hb : bestPatternWith vote locals = q := heq
    subst hb
    refine ⟨by rw [hsplit]; simp, ?_, l₁, l₂, hsplit, hall₁⟩
    intro x hx
    rw [hsplit] at hx
    rcases List.mem_append.1 hx with hx | hx
    · exact (hall₁ x hx).le
    · rcases List.mem_cons.1 hx with rfl | hx
      · exact le_refl _
      · exact hall₂ x hx

lemma voteOf_mem (x : String) (p : String) (h : voteOf x = some p) : p ∈ PATTERNS := by
  unfold voteOf at h
  by_cases h1 : (x.data.map Char.toLower).contains '.'
  · rw [if_pos h1] at h
    rcases hsp : splitBy (fun c => c = '.') (x.data.map Char.toLower) with
      _ | ⟨a, _ | ⟨b, _ | ⟨c, cs⟩⟩⟩ <;> rw [hsp] at h
    · cases h
    · cases h
    · have h' : (if a.length = 1 then (some "{f}.{last}" : Option String)
          else some "{first}.{last}") = some p := h
      split_ifs at h' <;> (cases h'; decide)
    · cases h
  · rw [if_neg h1] at h
    split_ifs at h <;> (cases h; decide)

lemma tally_pos_of_vote (locals : List String) (x : String) (p : String)
    (hx : x ∈ locals) (h : voteOf x = some p) : 0 < tally locals p := by
  unfold tally tallyWith
  rw [List.count_pos_iff]
  rw [← h]
  exact List.mem_map_of_mem voteOf hx

/-- C2 counterexample: on the mined local-part "j-doe" the vote described
by the claim splits at the hyphen and (first token of length 1) votes for
the initial-plus-dot template, but the code votes for the
first-name-plus-dot template without splitting hyphenated local-parts. -/
theorem c2_counterexample :
    c2SpecInferOriginal ["j-doe"] = some "{f}.{last}" ∧
    inferPattern ["j-doe"] = some "{first}.{last}" ∧
    c2SpecInferOriginal ["j-doe"] ≠ inferPattern ["j-doe"] := by
  refine ⟨by decide, by decide, by decide⟩

/-- C2 (amended): the per-local-part vote lowercases the local-part; a
local-part containing a dot is split at the dots and votes only when this
yields exactly two tokens — for the initial-plus-dot template when the
first token has length 1, else for the first-name-plus-dot template; a
dot-free local-part containing a hyphen always votes for the
first-name-plus-dot template; a separator-free local-part votes for the
short-initial-concatenation template when its length is at most 5 and
for the full-concatenation template otherwise.  The template with the
most votes wins, a tie going to the template that strictly beats every
higher-priority template (canonical priority order), and `none` is
returned exactly when no local-part produced a vote. -/
theorem c2_pattern_inference :
    (∀ x : String,
      (((x.data.map Char.toLower).contains '.') = true →
        ∀ a b, splitBy (fun c => c = '.') (x.data.map Char.toLower) = [a, b] →
          ((a.length = 1 → voteOf x = some "{f}.{last}") ∧
           (a.length ≠ 1 → voteOf x = some "{first}.{last}"))) ∧
      (((x.data.map Char.toLower).contains '.') = true →
        (∀ a b, splitBy (fun c => c = '.') (x.data.map Char.toLower) ≠ [a, b]) →
        voteOf x = none) ∧
      (((x.data.map Char.toLower).contains '.') = false →
        ((x.data.map Char.toLower).contains '-') = true →
        voteOf x = some "{first}.{last}") ∧
      (((x.data.map Char.toLower).contains '.') = false →
        ((x.data.map Char.toLower).contains '-') = false →
        (((x.data.map Char.toLower).length ≤ 5 → voteOf x = some "{f}{last}") ∧
         (5 < (x.data.map Char.toLower).length → voteOf x = some "{first}{last}")))) ∧
    (∀ locals : List String,
      (inferPattern locals = none ↔ ∀ x ∈ locals, voteOf x = none) ∧
      (∀ p, inferPattern locals = some p →
        p ∈ PATTERNS ∧ 0 < tally locals p ∧
        (∀ q ∈ PATTERNS, tally locals q ≤ tally locals p) ∧
        ∃ l₁ l₂, PATTERNS = l₁ ++ p :: l₂ ∧
          ∀ q ∈ l₁, tally locals q < tally locals p)) := by
  constructor
  · intro x
    refine ⟨?_, ?_, ?_, ?_⟩
    · intro hdot a b hsp
      unfold voteOf
      rw [if_pos hdot, hsp]
      have hm : (match [a, b] with
          | [a, _b] => if a.length = 1 then (some "{f}.{last}" : Option String)
            else some "{first}.{last}"
          | _ => none) =
          if a.length = 1 then some "{f}.{last}" else some "{first}.{last}" := rfl
      rw [hm]
      constructor <;> intro ha
      · rw [if_pos ha]
      · rw [if_neg ha]
    · intro hdot hne
      unfold voteOf
      rw [if_pos hdot]
      rcases hsp : splitBy (fun c => c = '.') (x.data.map Char.toLower) with
        _ | ⟨a, _ | ⟨b, _ | ⟨c, cs⟩⟩⟩
      · rfl
      · rfl
      · exact absurd hsp (hne a b)
      · rfl
    · intro hdot hhy
      unfold voteOf
      rw [if_neg (by simp only [hdot]; exact Bool.false_ne_true), if_pos hhy]
    · intro hdot hhy
      unfold voteOf
      rw [if_neg (by simp only [hdot]; exact Bool.false_ne_true),
        if_neg (by simp only [hhy]; exact Bool.false_ne_true)]
      constructor <;> intro hlen
      · rw [if_pos hlen]
      · rw [if_neg (by omega)]
  · intro locals
    have hbest := bestPatternWith_spec voteOf locals
    constructor
    · constructor
      · intro hnone x hx
        rcases hv : voteOf x with _ | p
        · rfl
        · exfalso
          unfold inferPattern inferPatternWith at hnone
          have hxne : ¬ locals.isEmpty := by
            cases locals with
            | nil => cases hx
            | cons a as => simp
          rw [if_neg hxne] at hnone
          have hpos := tally_pos_of_vote locals x p hx hv
          have hle := hbest.2.1 p (voteOf_mem x p hv)
          unfold tally at hpos
          have : 0 < tallyWith voteOf locals (bestPatternWith voteOf locals) := by omega
          rw [if_pos this] at hnone
          cases hnone
      · intro hall
        unfold inferPattern inferPatternWith
        by_cases hloc : locals.isEmpty
        · rw [if_pos hloc]
        · rw [if_neg hloc, if_neg ?_]
          intro hpos
          have : some (bestPatternWith voteOf locals) ∈ locals.map voteOf := by
            have := List.count_pos_iff.1 hpos
            exact this
          rcases List.mem_map.1 this with ⟨x, hx, hvx⟩
          rw [hall x hx] at hvx
          cases hvx
    · intro p hp
      unfold inferPattern inferPatternWith at hp
      by_cases hloc : locals.isEmpty
      · rw [if_pos hloc] at hp
        cases hp
      · rw [if_neg hloc] at hp
        by_cases hpos : 0 < tallyWith voteOf locals (bestPatternWith voteOf locals)
        · rw [if_pos hpos] at hp
          have hbp : bestPatternWith voteOf locals = p := by
            cases hp
            rfl
          rw [hbp] at hbest hpos
          exact ⟨hbest.1, hpos, hbest.2.1, hbest.2.2⟩
        · rw [if_neg hpos] at hp
          cases hp

/-- Witness for C2 at concrete local-parts: a hyphenated local-part votes
for the first-name-plus-dot template, and a list whose only local-part is
a double-dotted address (no vote) infers no pattern. -/
theorem c2_pattern_inference_witness :
    voteOf "ab-cd" = some "{first}.{last}" ∧
    inferPattern ["a.b.c"] = none :=
  ⟨(c2_pattern_inference.1 "ab-cd").2.2.1 (by decide) (by decide),
   ((c2_pattern_inference.2 ["a.b.c"]).1).2 (by decide)⟩

lemma cascadeInv_nil : cascadeInv [] [] [] := by
  refine ⟨List.Sublist.refl _, by simp, by simp, by simp, by simp⟩

lemma cascadeInv_step (s acc : List Recruiter) (seen : List String) (r : Recruiter)
    (h : cascadeInv s acc seen) :
    cascadeInv (s ++ [r]) (cascadeStepOne (acc, seen) r).1 (cascadeStepOne (acc, seen) r).2 := by
  obtain ⟨h1, h2, h3, h4, h5⟩ := h
  unfold cascadeStepOne
  by_cases hc : ¬ (normKey r).isEmpty ∧ normKey r ∉ seen
  · rw [if_pos hc]
    refine ⟨?_, ?_, ?_, ?_, ?_⟩
    · exact h1.append (List.Sublist.refl [r])
    · rw [List.map_append, List.map_cons, List.map_nil, List.nodup_append]
      refine ⟨h2, List.nodup_singleton _, ?_⟩
      rw [List.disjoint_singleton]
      intro hmem
      exact hc.2 ((h3 (normKey r)).2 hmem)
    · intro k
      rw [List.map_append, List.map_cons, List.map_nil]
      simp only [List.mem_cons, List.mem_append, List.mem_singleton,
        List.not_mem_nil, or_false]
      rw [h3 k]
      tauto
    · intro x hx hne
      rcases List.mem_append.1 hx with hx | hx
      · exact List.mem_cons_of_mem _ (h4 x hx hne)
      · rw [List.mem_singleton] at hx
        subst hx
        exact List.mem_cons_self _ _
    · intro a ha
      rcases List.mem_append.1 ha with ha | ha
      · obtain ⟨hane, l₁, l₂, hsplit, hfirst⟩ := h5 a ha
        exact ⟨hane, l₁, l₂ ++ [r], by rw [hsplit]; simp, hfirst⟩
      · rw [List.mem_singleton] at ha
        subst ha
        refine ⟨hc.1, s, [], rfl, ?_⟩
        intro x hx heq
        have hxne : ¬ (normKey x).isEmpty := by rw [heq]; exact hc.1
        exact hc.2 (heq ▸ h4 x hx hxne)
  · rw [if_neg hc]
    push_neg at hc
    refine ⟨h1.trans (List.sublist_append_left s [r]), h2, h3, ?_, ?_⟩
    · intro x hx hne
      rcases List.mem_append.1 hx with hx | hx
      · exact h4 x hx hne
      · rw [List.mem_singleton] at hx
        subst hx
        exact hc hne
    · intro a ha
      obtain ⟨hane, l₁, l₂, hsplit, hfirst⟩ := h5 a ha
      exact ⟨hane, l₁, l₂ ++ [r], by rw [hsplit]; simp, hfirst⟩

lemma cascadeInv_batch :
    ∀ (batch s acc : List Recruiter) (seen : List String),
      cascadeInv s acc seen →
      cascadeInv (s ++ batch) (cascadeBatch (acc, seen) batch).1
        (cascadeBatch (acc, seen) batch).2 := by
  intro batch
  induction batch with
  | nil =>
    intro s acc seen h
    simpa [cascadeBatch] using h
  | cons r rest ih =>
    intro s acc seen h
    have hstep := cascadeInv_step s acc seen r h
    have hrec := ih (s ++ [r]) (cascadeStepOne (acc, seen) r).1
      (cascadeStepOne (acc, seen) r).2 hstep
    have heq : cascadeBatch (acc, seen) (r :: rest) =
        cascadeBatch (cascadeStepOne (acc, seen) r) rest := rfl
    rw [heq, show s ++ r :: rest = (s ++ [r]) ++ rest by simp]
    exact hrec

lemma cascadeInv_loop :
    ∀ (batches : List (List Recruiter)) (maxResults : Nat)
      (acc : List Recruiter) (seen : List String) (s : List Recruiter),
      cascadeInv s acc seen →
      ∃ t rest, t ++ rest = batches.flatten ∧
        cascadeInv (s ++ t) (cascadeLoop maxResults batches (acc, seen)).1
          (cascadeLoop maxResults batches (acc, seen)).2 := by
  intro batches
  induction batches with
  | nil =>
    intro maxResults acc seen s h
    exact ⟨[], [], by simp, by simpa using h⟩
  | cons b bs ih =>
    intro maxResults acc seen s h
    have hunf : cascadeLoop maxResults (b :: bs) (acc, seen) =
        if maxResults ≤ acc.length then (acc, seen)
        else cascadeLoop maxResults bs (cascadeBatch (acc, seen) b) := rfl
    by_cases hstop : maxResults ≤ acc.length
    · refine ⟨[], (b :: bs).flatten, by simp, ?_⟩
      rw [hunf, if_pos hstop]
      simpa using h
    · have hb := cascadeInv_batch b s acc seen h
      obtain ⟨t', rest', ht', hinv⟩ := ih maxResults (cascadeBatch (acc, seen) b).1
        (cascadeBatch (acc, seen) b).2 (s ++ b) hb
      refine ⟨b ++ t', rest', ?_, ?_⟩
      · rw [List.append_assoc, ht']
        rfl
      · rw [hunf, if_neg hstop, ← List.append_assoc]
        exact hinv

/-- C6: any two contacts returned by one `findRecruiters` cascade call
have distinct normalized profile URLs (lowercased, trailing slashes
stripped); the returned list preserves encounter order (it is a sublist
of the concatenated result stream) and each returned contact is the
first element of the stream bearing its normalized URL (first occurrence
wins). -/
theorem c6_distinct_normalized_urls (batches : List (List Recruiter)) (maxResults : Nat) :
    ((findRecruiters batches maxResults).map normKey).Nodup ∧
    (findRecruiters batches maxResults).Sublist batches.flatten ∧
    ∀ r ∈ findRecruiters batches maxResults,
      ¬ (normKey r).isEmpty ∧
      ∃ l₁ l₂, batches.flatten = l₁ ++ r :: l₂ ∧ ∀ x ∈ l₁, normKey x ≠ normKey r := by
  obtain ⟨t, rest, ht, hinv⟩ :=
    cascadeInv_loop batches maxResults [] [] [] cascadeInv_nil
  rw [List.nil_append] at hinv
  obtain ⟨h1, h2, h3, h4, h5⟩ := hinv
  have hts : t.Sublist batches.flatten := by
    rw [← ht]
    exact List.sublist_append_left t rest
  refine ⟨?_, ?_, ?_⟩
  · exact ((List.take_sublist _ _).map normKey).nodup h2
  · exact ((List.take_sublist _ _).trans h1).trans hts
  · intro r hr
    have hr' : r ∈ (cascadeLoop maxResults batches ([], [])).1 :=
      (List.take_sublist _ _).subset hr
    obtain ⟨hne, l₁, l₂, hsplit, hfirst⟩ := h5 r hr'
    refine ⟨hne, l₁, l₂ ++ rest, ?_, hfirst⟩
    rw [← ht, hsplit]
    simp

/-- Witness for C6 at the concrete sample batches: the two case-variant
duplicates collapse, order is preserved, and N1 (kept, first occurrence)
has a non-empty key. -/
theorem c6_distinct_normalized_urls_witness :
    ((findRecruiters sampleBatchesC6 5).map normKey).Nodup ∧
    (findRecruiters sampleBatchesC6 5).map (fun r => r.name) = ["N1", "N3"] ∧
    ¬ (normKey { name := "N1", linkedin_url := some "https://linkedin.com/in/x/" }).isEmpty :=
  ⟨(c6_distinct_normalized_urls sampleBatchesC6 5).1, by decide,
   ((c6_distinct_normalized_urls sampleBatchesC6 5).2.2
      { name := "N1", linkedin_url := some "https://linkedin.com/in/x/" } (by decide)).1⟩

/-! ## dedupFirst lemmas (claim C5) -/

lemma mem_dedupFirstAux (l : List String) :
    ∀ (seen : List String) (x : String),
      x ∈ dedupFirstAux seen l ↔ x ∈ l ∧ x ∉ seen := by
  induction l with
  | nil => intro seen x; simp [dedupFirstAux]
  | cons a as ih =>
    intro seen x
    unfold dedupFirstAux
    by_cases ha : a ∈ seen
    · rw [if_pos ha, ih]
      constructor
      · rintro ⟨hx, hns⟩
        exact ⟨List.mem_cons_of_mem _ hx, hns⟩
      · rintro ⟨hx, hns⟩
        rcases List.mem_cons.1 hx with rfl | hx
        · exact absurd ha hns
        · exact ⟨hx, hns⟩
    · rw [if_neg ha]
      constructor
      · intro hx
        rcases List.mem_cons.1 hx with rfl | hx
        · exact ⟨List.mem_cons_self _ _, ha⟩
        · rcases (ih (a :: seen) x).1 hx with ⟨h1, h2⟩
          refine ⟨List.mem_cons_of_mem _ h1, fun hs => h2 (List.mem_cons_of_mem _ hs)⟩
      · rintro ⟨hx, hns⟩
        rcases List.mem_cons.1 hx with rfl | hx
        · exact List.mem_cons_self _ _
        · by_cases hxa : x = a
          · subst hxa
            exact List.mem_cons_self _ _
          · exact List.mem_cons_of_mem _
              ((ih (a :: seen) x).2 ⟨hx, by simp [hxa, hns]⟩)

lemma dedupFirstAux_sublist (l : List String) :
    ∀ seen : List String, (dedupFirstAux seen l).Sublist l := by
  induction l with
  | nil => intro seen; simp [dedupFirstAux]
  | cons a as ih =>
    intro seen
    unfold dedupFirstAux
    by_cases ha : a ∈ seen
    · rw [if_pos ha]
      exact (ih seen).trans (List.sublist_cons_self a as)
    · rw [if_neg ha]
      exact (ih (a :: seen)).cons₂ a

lemma dedupFirstAux_cons (seen : List String) (a : String) (l : List String) :
    dedupFirstAux seen (a :: l) =
      if a ∈ seen then dedupFirstAux seen l else a :: dedupFirstAux (a :: seen) l := rfl

lemma seenAfter_cons (seen : List String) (a : String) (l : List String) :
    seenAfter seen (a :: l) = seenAfter (if a ∈ seen then seen else a :: seen) l := rfl

lemma dedupFirstAux_append (u : List String) :
    ∀ (seen v : List String),
      dedupFirstAux seen (u ++ v) =
        dedupFirstAux seen u ++ dedupFirstAux (seenAfter seen u) v := by
  induction u with
  | nil => intro seen v; rfl
  | cons a u ih =>
    intro seen v
    rw [List.cons_append, dedupFirstAux_cons, dedupFirstAux_cons, seenAfter_cons]
    by_cases ha : a ∈ seen
    · rw [if_pos ha, if_pos ha, if_pos ha, ih]
    · rw [if_neg ha, if_neg ha, if_neg ha, ih, List.cons_append]

lemma mem_seenAfter (u : List String) :
    ∀ (seen : List String) (x : String),
      x ∈ seenAfter seen u ↔ x ∈ u ∨ x ∈ seen := by
  induction u with
  | nil => intro seen x; simp [seenAfter]
  | cons a u ih =>
    intro seen x
    unfold seenAfter
    by_cases ha : a ∈ seen
    · rw [if_pos ha, ih]
      constructor
      · rintro (hx | hx)
        · exact Or.inl (List.mem_cons_of_mem _ hx)
        · exact Or.inr hx
      · rintro (hx | hx)
        · rcases List.mem_cons.1 hx with rfl | hx
          · exact Or.inr ha
          · exact Or.inl hx
        · exact Or.inr hx
    · rw [if_neg ha, ih]
      simp only [List.mem_cons]
      tauto

lemma dedupFirstAux_eq_nil (l : List String) :
    ∀ seen : List String, (∀ x ∈ l, x ∈ seen) → dedupFirstAux seen l = [] := by
  induction l with
  | nil => intro seen _; rfl
  | cons a as ih =>
    intro seen h
    unfold dedupFirstAux
    rw [if_pos (h a (List.mem_cons_self _ _))]
    exact ih seen (fun x hx => h x (List.mem_cons_of_mem _ hx))

lemma mem_dedupFirst (l : List String) (x : String) :
    x ∈ dedupFirst l ↔ x ∈ l := by
  unfold dedupFirst
  rw [mem_dedupFirstAux]
  simp

/-- Key step lemma: from a state whose tried list is the deduplication of
a prefix of the candidate list, the first candidate not yet tried extends
it to the deduplication of a longer prefix. -/
lemma dedupFirst_take_step (cs : List String) (n : Nat) (a : String)
    (h : cs.find? (fun x => x ∉ dedupFirst (cs.take n)) = some a) :
    a ∉ dedupFirst (cs.take n) ∧
    ∃ m, dedupFirst (cs.take m) = dedupFirst (cs.take n) ++ [a] := by
  rcases List.find?_eq_some.1 h with ⟨hpa, l₁, l₂, hsplit, hall⟩
  have hamem : a ∉ dedupFirst (cs.take n) := by simpa using hpa
  have hl₁ : ∀ x ∈ l₁, x ∈ cs.take n := by
    intro x hx
    have := hall x hx
    simp only [Bool.not_eq_eq_eq_not, Bool.not_true, decide_eq_false_iff_not,
      Decidable.not_not] at this
    exact (mem_dedupFirst _ _).1 this
  have hatk : a ∉ cs.take n := fun hmem => hamem ((mem_dedupFirst _ _).2 hmem)
  have hn : n ≤ l₁.length := by
    by_contra hlt
    push_neg at hlt
    apply hatk
    rw [hsplit, List.take_append_eq_append_take]
    refine List.mem_append.2 (Or.inr ?_)
    have : 1 ≤ n - l₁.length := by omega
    rcases Nat.exists_eq_add_of_le this with ⟨k, hk⟩
    rw [show n - l₁.length = k + 1 by omega]
    exact List.mem_cons_self _ _
  have htk : cs.take n = l₁.take n := by
    rw [hsplit, List.take_append_eq_append_take,
      show n - l₁.length = 0 by omega, List.take_zero, List.append_nil]
  have hl₁' : ∀ x ∈ l₁, x ∈ l₁.take n := by
    intro x hx
    rw [← htk]
    exact hl₁ x hx
  have hdl₁ : dedupFirst l₁ = dedupFirst (l₁.take n) := by
    have hnil : dedupFirstAux (seenAfter [] (l₁.take n)) (l₁.drop n) = [] := by
      apply dedupFirstAux_eq_nil
      intro x hx
      rw [mem_seenAfter]
      exact Or.inl (hl₁' x (List.drop_subset n l₁ hx))
    conv_lhs => rw [← List.take_append_drop n l₁]
    unfold dedupFirst
    rw [dedupFirstAux_append, hnil, List.append_nil]
  have hanl₁ : a ∉ l₁ := fun hmem => hatk (htk ▸ hl₁' a hmem)
  refine ⟨hamem, l₁.length + 1, ?_⟩
  have htm : cs.take (l₁.length + 1) = l₁ ++ [a] := by
    rw [hsplit, List.take_append_eq_append_take,
      List.take_of_length_le (by omega),
      show l₁.length + 1 - l₁.length = 1 by omega]
    rfl
  rw [htm]
  unfold dedupFirst
  rw [dedupFirstAux_append]
  have hseen : a ∉ seenAfter [] l₁ := by
    rw [mem_seenAfter]
    simpa using hanl₁
  have hsingle : dedupFirstAux (seenAfter [] l₁) [a] = [a] := by
    unfold dedupFirstAux
    rw [if_neg hseen]
    rfl
  rw [hsingle]
  show dedupFirst l₁ ++ [a] = dedupFirst (cs.take n) ++ [a]
  rw [hdl₁, htk]

lemma nextAddress_eq_find (r : Recruiter) :
    nextAddress r = (candidatesOf r.email).find? (fun c => c ∉ r.email_tried) := by
  cases he : r.email with
  | none => simp [nextAddress, candidatesOf, he]
  | some e =>
    by_cases hE : e.isEmpty
    · have he' : e = "" := (String.isEmpty_iff e).1 hE
      subst he'
      simp [nextAddress, candidatesOf, he, candidatesOfStr_empty]
    · simp [nextAddress, candidatesOf, he, hE]

lemma nextAddress_not_tried (r : Recruiter) (a : String)
    (h : nextAddress r = some a) : a ∉ r.email_tried := by
  rw [nextAddress_eq_find] at h
  simpa using List.find?_some h

lemma updateSent_tried (now : Int) (r : Recruiter) (a : String)
    (h : nextAddress r = some a) :
    (updateSent now r).email_tried = r.email_tried ++ [a] := by
  unfold updateSent
  rw [h]

lemma updateSent_email (now : Int) (r : Recruiter) :
    (updateSent now r).email = r.email := by
  unfold updateSent
  rcases hna : nextAddress r with _ | a <;> rfl

lemma goodTried_updateSent (now : Int) (r : Recruiter) (h : goodTried r) :
    goodTried (updateSent now r) := by
  rcases h with ⟨n, hn⟩
  rcases hna : nextAddress r with _ | a
  · have hsame : updateSent now r = r := by
      unfold updateSent
      rw [hna]
    rw [hsame]
    exact ⟨n, hn⟩
  · have hfind : (candidatesOf r.email).find?
        (fun c => c ∉ dedupFirst ((candidatesOf r.email).take n)) = some a := by
      rw [← hn, ← nextAddress_eq_find]
      exact hna
    obtain ⟨-, m, hm⟩ := dedupFirst_take_step (candidatesOf r.email) n a hfind
    refine ⟨m, ?_⟩
    rw [updateSent_tried now r a hna, updateSent_email, hn, hm]

lemma goodTried_sublist (r : Recruiter) (h : goodTried r) :
    r.email_tried.Sublist (candidatesOf r.email) := by
  rcases h with ⟨n, hn⟩
  rw [hn]
  unfold dedupFirst
  exact (dedupFirstAux_sublist _ _).trans (List.take_sublist _ _)

lemma sendBatchGo_mem (now : Int) :
    ∀ (rs : List Recruiter) (budget : Nat),
      ∀ x ∈ sendBatchGo now budget rs, ∃ r ∈ rs, x = r ∨ x = updateSent now r := by
  intro rs
  induction rs with
  | nil =>
    intro budget x hx
    simp [sendBatchGo] at hx
  | cons r rest ih =>
    intro budget x hx
    cases budget with
    | zero => exact ⟨x, hx, Or.inl rfl⟩
    | succ b =>
      have he : sendBatchGo now (b + 1) (r :: rest) =
          if isSendable r then updateSent now r :: sendBatchGo now b rest
          else r :: sendBatchGo now (b + 1) rest := rfl
      by_cases hs : isSendable r
      · rw [he, if_pos hs] at hx
        rcases List.mem_cons.1 hx with hxr | hx
        · exact ⟨r, List.mem_cons_self _ _, Or.inr hxr⟩
        · obtain ⟨r', hr', hor⟩ := ih b x hx
          exact ⟨r', List.mem_cons_of_mem _ hr', hor⟩
      · rw [he, if_neg hs] at hx
        rcases List.mem_cons.1 hx with hxr | hx
        · exact ⟨r, List.mem_cons_self _ _, Or.inl hxr⟩
        · obtain ⟨r', hr', hor⟩ := ih (b + 1) x hx
          exact ⟨r', List.mem_cons_of_mem _ hr', hor⟩

lemma sendBatchGo_goodTried (now : Int) (budget : Nat) (rs : List Recruiter)
    (h : ∀ r ∈ rs, goodTried r) :
    ∀ x ∈ sendBatchGo now budget rs, goodTried x := by
  intro x hx
  obtain ⟨r, hr, hor⟩ := sendBatchGo_mem now rs budget x hx
  rcases hor with h1 | h1
  · rw [h1]
    exact h r hr
  · rw [h1]
    exact goodTried_updateSent now r (h r hr)

lemma sendBatches_goodTried :
    ∀ (invocations : List (Nat × Int)) (rs : List Recruiter),
      (∀ r ∈ rs, goodTried r) → ∀ x ∈ sendBatches invocations rs, goodTried x := by
  intro invocations
  induction invocations with
  | nil =>
    intro rs h x hx
    exact h x hx
  | cons inv rest ih =>
    intro rs h x hx
    exact ih (sendBatch rs inv.1 inv.2)
      (fun r hr => sendBatchGo_goodTried inv.2 inv.1 rs h r hr) x hx

/-- C5 counterexample: a state in which `triedAddresses` is a subsequence
of the candidate list but not one the machine produced (the second
candidate was tried first).  One `sendBatch` then sends the first
candidate and appends it, and the resulting tried list is no longer a
subsequence of the candidate list — so the plain subsequence hypothesis
of the claim is not inductive. -/
theorem c5_counterexample :
    sampleOutOfOrder.email_tried.Sublist (candidatesOf sampleOutOfOrder.email) ∧
    (sendBatch [sampleOutOfOrder] 1 0).headI.email_tried = ["b@x.com", "a@x.com"] ∧
    ¬ (sendBatch [sampleOutOfOrder] 1 0).headI.email_tried.Sublist
        (candidatesOf (sendBatch [sampleOutOfOrder] 1 0).headI.email) := by
  refine ⟨by decide, by decide, by decide⟩

/-- C5 (amended): in every contact state whose `triedAddresses` is the
first-occurrence deduplication of a prefix of the candidate address list
— which covers the initial empty state and every state `sendBatch`
itself produces — any sequence of `sendBatch` operations preserves that
shape, so `triedAddresses` stays a subsequence of the candidate list in
first-attempted order; moreover every send targets the first candidate
not yet tried and appends it, never an address already present. -/
theorem c5_tried_invariant :
    (∀ (r : Recruiter) (a : String), nextAddress r = some a →
      a ∉ r.email_tried ∧
      ∀ now : Int, (updateSent now r).email_tried = r.email_tried ++ [a]) ∧
    (∀ (invocations : List (Nat × Int)) (rs : List Recruiter),
      (∀ r ∈ rs, goodTried r) →
      ∀ x ∈ sendBatches invocations rs,
        goodTried x ∧ x.email_tried.Sublist (candidatesOf x.email)) := by
  constructor
  · intro r a h
    exact ⟨nextAddress_not_tried r a h, fun now => updateSent_tried now r a h⟩
  · intro invocations rs h x hx
    have hg := sendBatches_goodTried invocations rs h x hx
    exact ⟨hg, goodTried_sublist x hg⟩

/-- Witness for C5 at a concrete fresh contact: the send targets the
first candidate, appends it, and the new tried list is a subsequence of
the candidate list. -/
theorem c5_tried_invariant_witness :
    ("a@x.com" ∉ sampleFresh.email_tried ∧
      ∀ now : Int, (updateSent now sampleFresh).email_tried =
        sampleFresh.email_tried ++ ["a@x.com"]) ∧
    (updateSent 7 sampleFresh).email_tried.Sublist
      (candidatesOf (updateSent 7 sampleFresh).email) :=
  ⟨c5_tried_invariant.1 sampleFresh "a@x.com" (by decide),
   ((c5_tried_invariant.2 [(1, 7)] [sampleFresh]
      (fun r hr => by
        rw [List.mem_singleton] at hr
        subst hr
        exact ⟨0, rfl⟩)
      (updateSent 7 sampleFresh) (by decide))).2⟩

/-! ## String-replace lemmas (claim C1) -/

lemma replFuel_zero (needle repl cs : List Char) :
    replFuel needle repl 0 cs = cs := by
  cases cs <;> rfl

lemma not_prefix_at (needle : List Char) (hn : needle.head? = some '{')
    (c : Char) (hc : c ≠ '{') (cs : List Char) :
    ¬ (isPrefixL needle (c :: cs) ∧ needle ≠ []) := by
  rintro ⟨hpre, -⟩
  cases needle with
  | nil => cases hn
  | cons n0 nr =>
    have hn0 : n0 = '{' := by simpa using hn
    subst hn0
    simp only [isPrefixL, Bool.and_eq_true, beq_iff_eq] at hpre
    exact hc hpre.1.symm

lemma replFuel_no_brace (needle repl : List Char) (hn : needle.head? = some '{') :
    ∀ (cs : List Char), (∀ c ∈ cs, c ≠ '{') → ∀ fuel,
      replFuel needle repl fuel cs = cs := by
  intro cs
  induction cs with
  | nil => intro _ fuel; cases fuel <;> rfl
  | cons c cs ih =>
    intro h fuel
    cases fuel with
    | zero => rfl
    | succ f =>
      have e : replFuel needle repl (f + 1) (c :: cs) =
          if isPrefixL needle (c :: cs) ∧ needle ≠ [] then
            repl ++ replFuel needle repl f ((c :: cs).drop needle.length)
          else c :: replFuel needle repl f cs := rfl
      rw [e, if_neg (not_prefix_at needle hn c (h c (List.mem_cons_self _ _)) cs),
        ih (fun x hx => h x (List.mem_cons_of_mem _ hx)) f]

lemma replFuel_append (needle repl : List Char) (hn : needle.head? = some '{') :
    ∀ (xs : List Char), (∀ c ∈ xs, c ≠ '{') → ∀ fuel ys,
      replFuel needle repl fuel (xs ++ ys) =
        xs ++ replFuel needle repl (fuel - xs.length) ys := by
  intro xs
  induction xs with
  | nil =>
    intro _ fuel ys
    simp
  | cons x xs ih =>
    intro h fuel ys
    cases fuel with
    | zero =>
      rw [replFuel_zero, show (0 : Nat) - (x :: xs).length = 0 by omega, replFuel_zero]
    | succ f =>
      have e : replFuel needle repl (f + 1) ((x :: xs) ++ ys) =
          if isPrefixL needle (x :: (xs ++ ys)) ∧ needle ≠ [] then
            repl ++ replFuel needle repl f ((x :: (xs ++ ys)).drop needle.length)
          else x :: replFuel needle repl f (xs ++ ys) := rfl
      rw [e, if_neg (not_prefix_at needle hn x (h x (List.mem_cons_self _ _)) _),
        ih (fun y hy => h y (List.mem_cons_of_mem _ hy)) f ys,
        show f + 1 - (x :: xs).length = f - xs.length by
          rw [List.length_cons]; omega]
      rfl

lemma pyReplace_no_brace (s needle repl : String)
    (hn : needle.data.head? = some '{') (hs : ∀ c ∈ s.data, c ≠ '{') :
    pyReplace s needle repl = s := by
  apply String.ext
  show replFuel needle.data repl.data s.data.length s.data = s.data
  rw [replFuel_no_brace needle.data repl.data hn s.data hs]

/-! ## Normalized-token character facts (claim C1) -/

lemma normTok_chars (s : String) (h : isNormalizedToken s = true) :
    ∀ c ∈ s.data, isLowerAlpha c = true := by
  unfold isNormalizedToken at h
  simp only [Bool.and_eq_true, decide_eq_true_eq] at h
  intro c hc
  exact List.all_eq_true.1 h.2 c hc

lemma normTok_noBrace (s : String) (h : isNormalizedToken s = true) :
    ∀ c ∈ s.data, c ≠ '{' := by
  intro c hc heq
  have := normTok_chars s h c hc
  rw [heq] at this
  exact absurd this (by decide)

lemma normTok_ne_nil (s : String) (h : isNormalizedToken s = true) :
    s.data ≠ [] := by
  unfold isNormalizedToken at h
  simp only [Bool.and_eq_true, decide_eq_true_eq] at h
  simpa [List.isEmpty_iff] using h.1

lemma initialOf_noBrace (s : String) (hs : ∀ c ∈ s.data, c ≠ '{') :
    ∀ c ∈ (initialOf s).data, c ≠ '{' :=
  fun c hc => hs c (List.mem_of_mem_take hc)

lemma initialOf_length (s : String) (h : s.data ≠ []) :
    (initialOf s).length = 1 := by
  show (s.data.take 1).length = 1
  rw [List.length_take]
  have : 0 < s.data.length := List.length_pos.2 h
  omega

lemma normTok_no_dot (s : String) (h : isNormalizedToken s = true) :
    s.data.count '.' = 0 := by
  rw [List.count_eq_zero]
  intro hmem
  have := normTok_chars s h '.' hmem
  exact absurd this (by decide)

lemma initialOf_no_dot (s : String) (h : isNormalizedToken s = true) :
    (initialOf s).data.count '.' = 0 := by
  rw [List.count_eq_zero]
  intro hmem
  have := normTok_chars s h '.' (List.mem_of_mem_take hmem)
  exact absurd this (by decide)

lemma str_append_cancel_right (a b t : String) (h : a ++ t = b ++ t) : a = b := by
  apply String.ext
  have hd := congrArg String.data h
  rw [String.data_append, String.data_append] at hd
  exact List.append_cancel_right hd

/-! ## Evaluation of the six templates (claim C1) -/

lemma applyPattern_eval_1 (first last domain : String)
    (hf : ∀ c ∈ first.data, c ≠ '{') (hl : ∀ c ∈ last.data, c ≠ '{') :
    applyPattern first last domain "{first}.{last}" =
      first ++ "." ++ last ++ "@" ++ domain := by
  have s1 : pyReplace "{first}.{last}" "{first}" first = first ++ ".{last}" := rfl
  have s2 : pyReplace (first ++ ".{last}") "{last}" last = first ++ "." ++ last := by
    apply String.ext
    show replFuel "{last}".data last.data (first ++ ".{last}").data.length
        (first ++ ".{last}").data = (first ++ "." ++ last).data
    rw [show (first ++ ".{last}").data = first.data ++ ".{last}".data from rfl,
      replFuel_append "{last}".data last.data (by rfl) first.data hf,
      show (first.data ++ ".{last}".data).length - first.data.length = 7 by
        rw [List.length_append, show ".{last}".data.length = 7 from rfl]; omega]
    show first.data ++ ('.' :: (last.data ++ [])) = (first ++ "." ++ last).data
    rw [List.append_nil,
      show (first ++ "." ++ last).data = (first.data ++ ['.']) ++ last.data from rfl,
      List.append_assoc]
    rfl
  have hs12 : ∀ c ∈ (first ++ "." ++ last).data, c ≠ '{' := by
    intro c hc
    rw [show (first ++ "." ++ last).data = (first.data ++ ['.']) ++ last.data from rfl] at hc
    rcases List.mem_append.1 hc with hc | hc
    · rcases List.mem_append.1 hc with hc | hc
      · exact hf c hc
      · rw [List.mem_singleton] at hc
        subst hc
        decide
    · exact hl c hc
  have s3 : pyReplace (first ++ "." ++ last) "{f}" (initialOf first) =
      first ++ "." ++ last := pyReplace_no_brace _ _ _ (by rfl) hs12
  have s4 : pyReplace (first ++ "." ++ last) "{l}" (initialOf last) =
      first ++ "." ++ last := pyReplace_no_brace _ _ _ (by rfl) hs12
  unfold applyPattern
  rw [s1, s2, s3, s4]

lemma applyPattern_eval_2 (first last domain : String)
    (hf : ∀ c ∈ first.data, c ≠ '{') (hl : ∀ c ∈ last.data, c ≠ '{') :
    applyPattern first last domain "{f}{last}" =
      initialOf first ++ last ++ "@" ++ domain := by
  have s1 : pyReplace "{f}{last}" "{first}" first = "{f}{last}" := rfl
  have s2 : pyReplace "{f}{last}" "{last}" last = "{f}" ++ last := by
    apply String.ext
    show '{' :: 'f' :: '}' :: (last.data ++ []) = ("{f}" ++ last).data
    rw [List.append_nil]
    rfl
  have s3 : pyReplace ("{f}" ++ last) "{f}" (initialOf first) = initialOf first ++ last := by
    apply String.ext
    show (initialOf first).data ++
        replFuel "{f}".data (initialOf first).data (last.data.length + 2) last.data =
      (initialOf first ++ last).data
    rw [replFuel_no_brace "{f}".data (initialOf first).data (by rfl) last.data hl]
    rfl
  have hs3 : ∀ c ∈ (initialOf first ++ last).data, c ≠ '{' := by
    intro c hc
    rw [String.data_append] at hc
    rcases List.mem_append.1 hc with hc | hc
    · exact initialOf_noBrace first hf c hc
    · exact hl c hc
  have s4 : pyReplace (initialOf first ++ last) "{l}" (initialOf last) =
      initialOf first ++ last := pyReplace_no_brace _ _ _ (by rfl) hs3
  unfold applyPattern
  rw [s1, s2, s3, s4]

lemma applyPattern_eval_3 (first last domain : String)
    (hf : ∀ c ∈ first.data, c ≠ '{') :
    applyPattern first last domain "{first}{l}" =
      first ++ initialOf last ++ "@" ++ domain := by
  have s1 : pyReplace "{first}{l}" "{first}" first = first ++ "{l}" := rfl
  have s2 : pyReplace (first ++ "{l}") "{last}" last = first ++ "{l}" := by
    apply String.ext
    show replFuel "{last}".data last.data (first ++ "{l}").data.length
        (first ++ "{l}").data = (first ++ "{l}").data
    rw [show (first ++ "{l}").data = first.data ++ "{l}".data from rfl,
      replFuel_append "{last}".data last.data (by rfl) first.data hf,
      show (first.data ++ "{l}".data).length - first.data.length = 3 by
        rw [List.length_append, show "{l}".data.length = 3 from rfl]; omega]
    rfl
  have s3 : pyReplace (first ++ "{l}") "{f}" (initialOf first) = first ++ "{l}" := by
    apply String.ext
    show replFuel "{f}".data (initialOf first).data (first ++ "{l}").data.length
        (first ++ "{l}").data = (first ++ "{l}").data
    rw [show (first ++ "{l}").data = first.data ++ "{l}".data from rfl,
      replFuel_append "{f}".data (initialOf first).data (by rfl) first.data hf,
      show (first.data ++ "{l}".data).length - first.data.length = 3 by
        rw [List.length_append, show "{l}".data.length = 3 from rfl]; omega]
    rfl
  have s4 : pyReplace (first ++ "{l}") "{l}" (initialOf last) = first ++ initialOf last := by
    apply String.ext
    show replFuel "{l}".data (initialOf last).data (first ++ "{l}").data.length
        (first ++ "{l}").data = (first ++ initialOf last).data
    rw [show (first ++ "{l}").data = first.data ++ "{l}".data from rfl,
      replFuel_append "{l}".data (initialOf last).data (by rfl) first.data hf,
      show (first.data ++ "{l}".data).length - first.data.length = 3 by
        rw [List.length_append, show "{l}".data.length = 3 from rfl]; omega]
    show first.data ++ ((initialOf last).data ++ []) = (first ++ initialOf last).data
    rw [List.append_nil]
    rfl
  unfold applyPattern
  rw [s1, s2, s3, s4]

lemma applyPattern_eval_4 (first last domain : String)
    (hf : ∀ c ∈ first.data, c ≠ '{') :
    applyPattern first last domain "{first}" = first ++ "@" ++ domain := by
  have s1 : pyReplace "{first}" "{first}" first = first := by
    apply String.ext
    show first.data ++ ([] : List Char) = first.data
    rw [List.append_nil]
  have s2 : pyReplace first "{last}" last = first :=
    pyReplace_no_brace _ _ _ (by rfl) hf
  have s3 : pyReplace first "{f}" (initialOf first) = first :=
    pyReplace_no_brace _ _ _ (by rfl) hf
  have s4 : pyReplace first "{l}" (initialOf last) = first :=
    pyReplace_no_brace _ _ _ (by rfl) hf
  unfold applyPattern
  rw [s1, s2, s3, s4]

lemma applyPattern_eval_5 (first last domain : String)
    (hf : ∀ c ∈ first.data, c ≠ '{') (hl : ∀ c ∈ last.data, c ≠ '{') :
    applyPattern first last domain "{f}.{last}" =
      initialOf first ++ "." ++ last ++ "@" ++ domain := by
  have s1 : pyReplace "{f}.{last}" "{first}" first = "{f}.{last}" := rfl
  have s2 : pyReplace "{f}.{last}" "{last}" last = "{f}." ++ last := by
    apply String.ext
    show '{' :: 'f' :: '}' :: '.' :: (last.data ++ []) = ("{f}." ++ last).data
    rw [List.append_nil]
    rfl
  have s3 : pyReplace ("{f}." ++ last) "{f}" (initialOf first) =
      initialOf first ++ "." ++ last := by
    apply String.ext
    show (initialOf first).data ++
        ('.' :: replFuel "{f}".data (initialOf first).data (last.data.length + 2) last.data) =
      (initialOf first ++ "." ++ last).data
    rw [replFuel_no_brace "{f}".data (initialOf first).data (by rfl) last.data hl,
      show (initialOf first ++ "." ++ last).data =
        ((initialOf first).data ++ ['.']) ++ last.data from rfl,
      List.append_assoc]
    rfl
  have hs3 : ∀ c ∈ (initialOf first ++ "." ++ last).data, c ≠ '{' := by
    intro c hc
    rw [show (initialOf first ++ "." ++ last).data =
      ((initialOf first).data ++ ['.']) ++ last.data from rfl] at hc
    rcases List.mem_append.1 hc with hc | hc
    · rcases List.mem_append.1 hc with hc | hc
      · exact initialOf_noBrace first hf c hc
      · rw [List.mem_singleton] at hc
        subst hc
        decide
    · exact hl c hc
  have s4 : pyReplace (initialOf first ++ "." ++ last) "{l}" (initialOf last) =
      initialOf first ++ "." ++ last := pyReplace_no_brace _ _ _ (by rfl) hs3
  unfold applyPattern
  rw [s1, s2, s3, s4]

lemma applyPattern_eval_6 (first last domain : String)
    (hf : ∀ c ∈ first.data, c ≠ '{') (hl : ∀ c ∈ last.data, c ≠ '{') :
    applyPattern first last domain "{first}{last}" =
      first ++ last ++ "@" ++ domain := by
  have s1 : pyReplace "{first}{last}" "{first}" first = first ++ "{last}" := rfl
  have s2 : pyReplace (first ++ "{last}") "{last}" last = first ++ last := by
    apply String.ext
    show replFuel "{last}".data last.data (first ++ "{last}").data.length
        (first ++ "{last}").data = (first ++ last).data
    rw [show (first ++ "{last}").data = first.data ++ "{last}".data from rfl,
      replFuel_append "{last}".data last.data (by rfl) first.data hf,
      show (first.data ++ "{last}".data).length - first.data.length = 6 by
        rw [List.length_append, show "{last}".data.length = 6 from rfl]; omega]
    show first.data ++ (last.data ++ []) = (first ++ last).data
    rw [List.append_nil]
    rfl
  have hs2 : ∀ c ∈ (first ++ last).data, c ≠ '{' := by
    intro c hc
    rw [String.data_append] at hc
    rcases List.mem_append.1 hc with hc | hc
    · exact hf c hc
    · exact hl c hc
  have s3 : pyReplace (first ++ last) "{f}" (initialOf first) = first ++ last :=
    pyReplace_no_brace _ _ _ (by rfl) hs2
  have s4 : pyReplace (first ++ last) "{l}" (initialOf last) = first ++ last :=
    pyReplace_no_brace _ _ _ (by rfl) hs2
  unfold applyPattern
  rw [s1, s2, s3, s4]

/-- C1 counterexample: for the normalized tokens "j" and "doe" (a
single-letter first name, as produced e.g. by parsing "J. Doe") the 6
generated candidates are NOT pairwise distinct: "{first}.{last}" and
"{f}.{last}" coincide, as do "{f}{last}" and "{first}{last}". -/
theorem c1_counterexample :
    isNormalizedToken "j" = true ∧
    isNormalizedToken "doe" = true ∧
    generateEmails "j" "doe" "x.com" none =
      String.intercalate "," (candidateEmails "j" "doe" "x.com") ∧
    (candidateEmails "j" "doe" "x.com").length = 6 ∧
    ¬ (candidateEmails "j" "doe" "x.com").Nodup := by
  refine ⟨by decide, by decide, rfl, rfl, by decide⟩

/-- C1 (amended): for every domain and pair of non-empty normalized name
tokens, `generate` with pattern unknown returns the 6 candidates joined
by commas, each candidate ending in `@domain`, in canonical priority
order (the explicit list below); the candidates are pairwise distinct
whenever both tokens have length at least 2, the first name is not its
own initial followed by the last name, and initial-plus-last differs
from first-plus-initial — but not in general (see the counterexample). -/
theorem c1_generate_candidates (first last domain : String) :
    (generateEmails first last domain none =
      String.intercalate "," (candidateEmails first last domain)) ∧
    ((candidateEmails first last domain).length = 6) ∧
    (∀ c ∈ candidateEmails first last domain, ∃ x, c = x ++ "@" ++ domain) ∧
    (isNormalizedToken first = true → isNormalizedToken last = true →
      candidateEmails first last domain =
        [first ++ "." ++ last ++ "@" ++ domain,
         initialOf first ++ last ++ "@" ++ domain,
         first ++ initialOf last ++ "@" ++ domain,
         first ++ "@" ++ domain,
         initialOf first ++ "." ++ last ++ "@" ++ domain,
         first ++ last ++ "@" ++ domain]) ∧
    (isNormalizedToken first = true → isNormalizedToken last = true →
      2 ≤ first.length → 2 ≤ last.length →
      first ≠ initialOf first ++ last →
      initialOf first ++ last ≠ first ++ initialOf last →
      (candidateEmails first last domain).Nodup) := by
  have hlist : isNormalizedToken first = true → isNormalizedToken last = true →
      candidateEmails first last domain =
        [first ++ "." ++ last ++ "@" ++ domain,
         initialOf first ++ last ++ "@" ++ domain,
         first ++ initialOf last ++ "@" ++ domain,
         first ++ "@" ++ domain,
         initialOf first ++ "." ++ last ++ "@" ++ domain,
         first ++ last ++ "@" ++ domain] := by
    intro h1 h2
    have hf := normTok_noBrace first h1
    have hl := normTok_noBrace last h2
    have e : candidateEmails first last domain =
        [applyPattern first last domain "{first}.{last}",
         applyPattern first last domain "{f}{last}",
         applyPattern first last domain "{first}{l}",
         applyPattern first last domain "{first}",
         applyPattern first last domain "{f}.{last}",
         applyPattern first last domain "{first}{last}"] := rfl
    rw [e, applyPattern_eval_1 first last domain hf hl,
      applyPattern_eval_2 first last domain hf hl,
      applyPattern_eval_3 first last domain hf,
      applyPattern_eval_4 first last domain hf,
      applyPattern_eval_5 first last domain hf hl,
      applyPattern_eval_6 first last domain hf hl]
  refine ⟨rfl, rfl, ?_, hlist, ?_⟩
  · intro c hc
    rcases List.mem_map.1 hc with ⟨p, -, rfl⟩
    exact ⟨_, rfl⟩
  · intro h1 h2 hF2 hL2 hne1 hne2
    rw [hlist h1 h2]
    have hfi1 : (initialOf first).length = 1 := initialOf_length _ (normTok_ne_nil _ h1)
    have hli1 : (initialOf last).length = 1 := initialOf_length _ (normTok_ne_nil _ h2)
    have hFd : first.data.count '.' = 0 := normTok_no_dot first h1
    have hLd : last.data.count '.' = 0 := normTok_no_dot last h2
    have hfid : (initialOf first).data.count '.' = 0 := initialOf_no_dot first h1
    have hlid : (initialOf last).data.count '.' = 0 := initialOf_no_dot last h2
    have hdl : ("." : String).length = 1 := rfl
    have hal : ("@" : String).length = 1 := rfl
    have hdotd : ("." : String).data.count '.' = 1 := rfl
    have hatd : ("@" : String).data.count '.' = 0 := rfl
    have hAB : first ++ "." ++ last ++ "@" ++ domain ≠
        initialOf first ++ last ++ "@" ++ domain := by
      intro heq
      have hcnt := congrArg (fun s => s.data.count '.') heq
      simp only [String.data_append, List.count_append, hFd, hLd, hfid, hlid,
        hdotd, hatd] at hcnt
      omega
    have hAC : first ++ "." ++ last ++ "@" ++ domain ≠
        first ++ initialOf last ++ "@" ++ domain := by
      intro heq
      have hcnt := congrArg (fun s => s.data.count '.') heq
      simp only [String.data_append, List.count_append, hFd, hLd, hfid, hlid,
        hdotd, hatd] at hcnt
      omega
    have hAD : first ++ "." ++ last ++ "@" ++ domain ≠ first ++ "@" ++ domain := by
      intro heq
      have hcnt := congrArg (fun s => s.data.count '.') heq
      simp only [String.data_append, List.count_append, hFd, hLd, hfid, hlid,
        hdotd, hatd] at hcnt
      omega
    have hAE : first ++ "." ++ last ++ "@" ++ domain ≠
        initialOf first ++ "." ++ last ++ "@" ++ domain := by
      intro heq
      have hlen := congrArg String.length heq
      simp only [String.length_append, hfi1, hli1, hdl, hal] at hlen
      omega
    have hAF : first ++ "." ++ last ++ "@" ++ domain ≠
        first ++ last ++ "@" ++ domain := by
      intro heq
      have hcnt := congrArg (fun s => s.data.count '.') heq
      simp only [String.data_append, List.count_append, hFd, hLd, hfid, hlid,
        hdotd, hatd] at hcnt
      omega
    have hBC : initialOf first ++ last ++ "@" ++ domain ≠
        first ++ initialOf last ++ "@" ++ domain := by
      intro heq
      exact hne2 (str_append_cancel_right _ _ _ (str_append_cancel_right _ _ _ heq))
    have hBD : initialOf first ++ last ++ "@" ++ domain ≠ first ++ "@" ++ domain := by
      intro heq
      exact hne1 (str_append_cancel_right _ _ _ (str_append_cancel_right _ _ _ heq)).symm
    have hBE : initialOf first ++ last ++ "@" ++ domain ≠
        initialOf first ++ "." ++ last ++ "@" ++ domain := by
      intro heq
      have hcnt := congrArg (fun s => s.data.count '.') heq
      simp only [String.data_append, List.count_append, hFd, hLd, hfid, hlid,
        hdotd, hatd] at hcnt
      omega
    have hBF : initialOf first ++ last ++ "@" ++ domain ≠
        first ++ last ++ "@" ++ domain := by
      intro heq
      have hlen := congrArg String.length heq
      simp only [String.length_append, hfi1, hli1, hdl, hal] at hlen
      omega
    have hCD : first ++ initialOf last ++ "@" ++ domain ≠ first ++ "@" ++ domain := by
      intro heq
      have hlen := congrArg String.length heq
      simp only [String.length_append, hfi1, hli1, hdl, hal] at hlen
      omega
    have hCE : first ++ initialOf last ++ "@" ++ domain ≠
        initialOf first ++ "." ++ last ++ "@" ++ domain := by
      intro heq
      have hcnt := congrArg (fun s => s.data.count '.') heq
      simp only [String.data_append, List.count_append, hFd, hLd, hfid, hlid,
        hdotd, hatd] at hcnt
      omega
    have hCF : first ++ initialOf last ++ "@" ++ domain ≠
        first ++ last ++ "@" ++ domain := by
      intro heq
      have hlen := congrArg String.length heq
      simp only [String.length_append, hfi1, hli1, hdl, hal] at hlen
      omega
    have hDE : first ++ "@" ++ domain ≠
        initialOf first ++ "." ++ last ++ "@" ++ domain := by
      intro heq
      have hcnt := congrArg (fun s => s.data.count '.') heq
      simp only [String.data_append, List.count_append, hFd, hLd, hfid, hlid,
        hdotd, hatd] at hcnt
      omega
    have hDF : first ++ "@" ++ domain ≠ first ++ last ++ "@" ++ domain := by
      intro heq
      have hlen := congrArg String.length heq
      simp only [String.length_append, hfi1, hli1, hdl, hal] at hlen
      omega
    have hEF : initialOf first ++ "." ++ last ++ "@" ++ domain ≠
        first ++ last ++ "@" ++ domain := by
      intro heq
      have hcnt := congrArg (fun s => s.data.count '.') heq
      simp only [String.data_append, List.count_append, hFd, hLd, hfid, hlid,
        hdotd, hatd] at hcnt
      omega
    simp only [List.nodup_cons, List.mem_cons, List.not_mem_nil, or_false,
      List.nodup_nil, and_true, not_or]
    exact ⟨⟨hAB, hAC, hAD, hAE, hAF⟩, ⟨hBC, hBD, hBE, hBF⟩, ⟨hCD, hCE, hCF⟩,
      ⟨hDE, hDF⟩, hEF, not_false⟩

/-- Witness for C1 at the concrete tokens "jane"/"doe" and domain
"acme.com": the candidate list takes the claimed explicit form and is
pairwise distinct. -/
theorem c1_generate_candidates_witness :
    candidateEmails "jane" "doe" "acme.com" =
      ["jane" ++ "." ++ "doe" ++ "@" ++ "acme.com",
       initialOf "jane" ++ "doe" ++ "@" ++ "acme.com",
       "jane" ++ initialOf "doe" ++ "@" ++ "acme.com",
       "jane" ++ "@" ++ "acme.com",
       initialOf "jane" ++ "." ++ "doe" ++ "@" ++ "acme.com",
       "jane" ++ "doe" ++ "@" ++ "acme.com"] ∧
    (candidateEmails "jane" "doe" "acme.com").Nodup :=
  ⟨(c1_generate_candidates "jane" "doe" "acme.com").2.2.2.1 (by decide) (by decide),
   (c1_generate_candidates "jane" "doe" "acme.com").2.2.2.2 (by decide) (by decide)
     (by decide) (by decide) (by decide) (by decide)⟩

end GetMeHired
